import Mathlib

/-!
Verification of the inline-completion model (`InlineCompletionsModel`,
`src/vs/editor/contrib/inlineCompletions/browser/inlineCompletionsModel.ts`)
against its natural-language specification.

Texts are embedded as `List Char`; documents as lists of lines; positions use
the editor's 1-based line/column convention.  Stateful accept paths are
embedded as pure functions returning the ordered list of external effects they
perform (an event trace), with fallible paths returning `Except`.
-/

namespace InlineCompletions

/-- A 1-based editor position (lineNumber, column). -/
structure Pos where
  line : Nat
  col : Nat
  deriving DecidableEq, Repr

/-- A range given by a start and an end position (end exclusive). -/
structure Rng where
  start : Pos
  stop : Pos
  deriving DecidableEq, Repr

/-- A single replacement edit: replace `range` with `text`
(embeds `SingleTextEdit`). -/
structure STE where
  range : Rng
  text : List Char
  deriving DecidableEq, Repr

/-- Clamp a JavaScript string index to `[0, s.length]` as
`String.prototype.substring` does (negative indices become 0). -/
def tsClamp (s : List Char) (i : Int) : Nat :=
  min s.length i.toNat

/-- JavaScript `s.substring(a, b)`: clamps both indices and swaps them when
`a > b`. -/
def tsSubstring (s : List Char) (a b : Int) : List Char :=
  let i := tsClamp s a
  let j := tsClamp s b
  (s.drop (min i j)).take (max i j - min i j)

/-- JavaScript `s.substring(a)`: everything from the clamped index on. -/
def tsSubstringFrom (s : List Char) (a : Int) : List Char :=
  s.drop (tsClamp s a)

/-- Modelled from the spec: `commonPrefixLength` (helper from
`vs/base/common/strings`, not part of the sampled sources) computes the length
of the longest common prefix of two strings. -/
def commonPrefixLength : List Char → List Char → Nat
  | a :: as, b :: bs => if a = b then commonPrefixLength as bs + 1 else 0
  | _, _ => 0

/-- `k` is the length of the longest common prefix of `a` and `b`:
the first `k` characters agree, and any agreeing prefix that fits in both
strings is no longer than `k`. -/
def LcpSpec (k : Nat) (a b : List Char) : Prop :=
  a.take k = b.take k ∧
    ∀ j, j ≤ a.length → j ≤ b.length → a.take j = b.take j → j ≤ k

theorem commonPrefixLength_take :
    ∀ a b : List Char, a.take (commonPrefixLength a b) = b.take (commonPrefixLength a b) := by
  intro a
  induction a with
  | nil => intro b; cases b <;> simp [commonPrefixLength]
  | cons x xs ih =>
    intro b
    cases b with
    | nil => simp [commonPrefixLength]
    | cons y ys =>
      by_cases h : x = y
      · simp [commonPrefixLength, h, ih ys]
      · simp [commonPrefixLength, h]

theorem commonPrefixLength_max :
    ∀ a b : List Char, ∀ j, j ≤ a.length → j ≤ b.length →
      a.take j = b.take j → j ≤ commonPrefixLength a b := by
  intro a
  induction a with
  | nil => intro b j hja _ _; simp at hja; omega
  | cons x xs ih =>
    intro b j hja hjb htake
    cases b with
    | nil => simp at hjb; omega
    | cons y ys =>
      cases j with
      | zero => exact Nat.zero_le _
      | succ j =>
        simp only [List.take_succ_cons, List.cons.injEq] at htake
        obtain ⟨rfl, htail⟩ := htake
        have := ih ys j (by simpa using hja) (by simpa using hjb) htail
        simp [commonPrefixLength]
        omega

theorem commonPrefixLength_lcpSpec (a b : List Char) :
    LcpSpec (commonPrefixLength a b) a b :=
  ⟨commonPrefixLength_take a b, commonPrefixLength_max a b⟩

/-- Content of a 1-based line of the document (missing lines read as empty). -/
def lineChars (doc : List (List Char)) (ln : Nat) : List Char :=
  (doc.get? (ln - 1)).getD []

/-- Embeds the edit-list computation of `InlineCompletionsModel._getEdits`:
one primary edit (the completion itself) followed by one derived edit per
secondary cursor.  The source also derives post-edit selections from these
edits; the claims under verification only concern the edit list. -/
def getEditsList (textModel : List (List Char)) (selections : List Pos)
    (completion : STE) : List STE :=
  match selections with
  | [] => []
  | primaryPosition :: secondaryPositions =>
    let replacedTextAfterPrimaryCursor :=
      tsSubstring (lineChars textModel primaryPosition.line)
        ((primaryPosition.col : Int) - 1) ((completion.range.stop.col : Int) - 1)
    let secondaryEditText :=
      tsSubstringFrom completion.text ((primaryPosition.col : Int) - (completion.range.start.col : Int))
    ⟨completion.range, completion.text⟩ ::
      secondaryPositions.map (fun pos =>
        let textAfterSecondaryCursor :=
          tsSubstringFrom (lineChars textModel pos.line) ((pos.col : Int) - 1)
        let l := commonPrefixLength replacedTextAfterPrimaryCursor textAfterSecondaryCursor
        ⟨⟨pos, ⟨pos.line, pos.col + l⟩⟩, secondaryEditText⟩)

example :
    getEditsList [['a','b','z'], ['a','b','y']] [⟨1,1⟩, ⟨2,1⟩]
      ⟨⟨⟨1,1⟩, ⟨1,3⟩⟩, ['a','b','c']⟩ =
    [⟨⟨⟨1,1⟩, ⟨1,3⟩⟩, ['a','b','c']⟩,
     ⟨⟨⟨2,1⟩, ⟨2,3⟩⟩, ['a','b','c']⟩] := by decide

/-- C1: for a selected candidate and cursors `p :: rest`, the edit set has one
edit per cursor; the edit derived for the secondary cursor at index `i` spans
exactly the `k` characters of the longest common prefix between that cursor's
trailing line text and the text the primary edit replaces after the primary
cursor, inserts the replacement text the primary cursor receives, and
degenerates to a zero-width insertion at the cursor when `k = 0`. -/
theorem secondaryEditsSpec (doc : List (List Char)) (p pos : Pos)
    (rest : List Pos) (completion : STE) (i : Nat)
    (hp : rest.get? i = some pos) :
    (getEditsList doc (p :: rest) completion).length = rest.length + 1 ∧
    ∃ k,
      LcpSpec k
        (tsSubstring (lineChars doc p.line)
          ((p.col : Int) - 1) ((completion.range.stop.col : Int) - 1))
        (tsSubstringFrom (lineChars doc pos.line) ((pos.col : Int) - 1)) ∧
      (getEditsList doc (p :: rest) completion).get? (i + 1) =
        some ⟨⟨pos, ⟨pos.line, pos.col + k⟩⟩,
          tsSubstringFrom completion.text
            ((p.col : Int) - (completion.range.start.col : Int))⟩ ∧
      (k = 0 → (⟨pos.line, pos.col + k⟩ : Pos) = pos) := by
  constructor
  · simp [getEditsList]
  · refine ⟨commonPrefixLength
      (tsSubstring (lineChars doc p.line)
        ((p.col : Int) - 1) ((completion.range.stop.col : Int) - 1))
      (tsSubstringFrom (lineChars doc pos.line) ((pos.col : Int) - 1)),
      commonPrefixLength_lcpSpec _ _, ?_, ?_⟩
    · simp [getEditsList, List.getElem?_map, hp]
      exact ⟨pos, by simpa using hp, rfl, rfl, rfl⟩
    · intro hk
      simp [hk]

/-- Concrete instance discharging the hypotheses of `secondaryEditsSpec`. -/
theorem secondaryEditsSpecWitness :
    ([(⟨2,1⟩ : Pos)].get? 0 = some ⟨2,1⟩) ∧
    ((getEditsList [['a','b','z'], ['a','b','y']] [⟨1,1⟩, ⟨2,1⟩]
        ⟨⟨⟨1,1⟩, ⟨1,3⟩⟩, ['a','b','c']⟩).length = 1 + 1 ∧
     ∃ k,
      LcpSpec k
        (tsSubstring (lineChars [['a','b','z'], ['a','b','y']] (Pos.line ⟨1,1⟩))
          (((Pos.col ⟨1,1⟩ : Nat) : Int) - 1) (((3 : Nat) : Int) - 1))
        (tsSubstringFrom (lineChars [['a','b','z'], ['a','b','y']] (Pos.line ⟨2,1⟩))
          (((Pos.col ⟨2,1⟩ : Nat) : Int) - 1)) ∧
      (getEditsList [['a','b','z'], ['a','b','y']] [⟨1,1⟩, ⟨2,1⟩]
          ⟨⟨⟨1,1⟩, ⟨1,3⟩⟩, ['a','b','c']⟩).get? (0 + 1) =
        some ⟨⟨⟨2,1⟩, ⟨Pos.line ⟨2,1⟩, Pos.col ⟨2,1⟩ + k⟩⟩,
          tsSubstringFrom ['a','b','c']
            (((Pos.col ⟨1,1⟩ : Nat) : Int) - ((1 : Nat) : Int))⟩ ∧
      (k = 0 → (⟨Pos.line ⟨2,1⟩, Pos.col ⟨2,1⟩ + k⟩ : Pos) = ⟨2,1⟩)) :=
  ⟨by decide,
    secondaryEditsSpec [['a','b','z'], ['a','b','y']] ⟨1,1⟩ ⟨2,1⟩ [⟨2,1⟩]
      ⟨⟨⟨1,1⟩, ⟨1,3⟩⟩, ['a','b','c']⟩ 0 (by decide)⟩

/-- Character class of the fixed JavaScript whitespace regex used by
`acceptNextWord`. -/
def isWsChar (c : Char) : Bool :=
  c == ' ' || c == '\t' || c == '\n' || c == '\r' || c == '\x0b' || c == '\x0c'

/-- Character class of the word regex `\w` (letters, digits, underscore). -/
def isWordCharW (c : Char) : Bool :=
  ('a' ≤ c && c ≤ 'z') || ('A' ≤ c && c ≤ 'Z') || ('0' ≤ c && c ≤ '9') || c == '_'

/-- Modelled from the spec: the first match of a character-class-plus regex
(such as the word definition or the whitespace regex) in a string is the first
maximal run of matching characters, returned as (index, length). -/
def firstRun (p : Char → Bool) : List Char → Option (Nat × Nat)
  | [] => none
  | c :: rest =>
    if p c then some (0, ((c :: rest).takeWhile p).length)
    else (firstRun p rest).map (fun r => (r.1 + 1, r.2))

/-- Embeds the boundary computation of `acceptNextWord`: `m1` is the first
match of the language's word regex in the remaining ghost text; the result is
cut down by the end of the first whitespace run when that comes earlier. -/
def acceptNextWordIndex (m1 : Option (Nat × Nat)) (text : List Char) : Nat :=
  let acc :=
    match m1 with
    | some r => if r.1 = 0 then r.2 else r.1
    | none => text.length
  match firstRun isWsChar text with
  | some r => if r.1 + r.2 < acc then r.1 + r.2 else acc
  | none => acc

/-- The `acceptNextWord` boundary for a word definition given as a character
class. -/
def acceptNextWordBoundary (isWordChar : Char → Bool) (text : List Char) : Nat :=
  acceptNextWordIndex (firstRun isWordChar text) text

/-- Embeds the boundary computation of `acceptNextLine`: up to and including
the first newline, or the whole text. -/
def acceptNextLineIndex (text : List Char) : Nat :=
  match firstRun (· == '\n') text with
  | some r => r.1 + 1
  | none => text.length

/-- The stop position contributed by the word-regex match alone. -/
def wordStopIndex (isWordChar : Char → Bool) (text : List Char) : Nat :=
  match firstRun isWordChar text with
  | some r => if r.1 = 0 then r.2 else r.1
  | none => text.length

/-- The stop position contributed by the first whitespace run alone. -/
def wsStopIndex (text : List Char) : Nat :=
  match firstRun isWsChar text with
  | some r => r.1 + r.2
  | none => text.length

theorem takeWhile_length_below (p : Char → Bool) :
    ∀ t : List Char, (t.takeWhile p).length ≤ t.length := by
  intro t
  induction t with
  | nil => simp
  | cons c rest ih =>
    by_cases hc : p c
    · simp only [List.takeWhile_cons, hc, if_true, List.length_cons]
      omega
    · simp [List.takeWhile_cons, hc]

theorem firstRun_le (p : Char → Bool) :
    ∀ t : List Char, ∀ i l, firstRun p t = some (i, l) → i + l ≤ t.length := by
  intro t
  induction t with
  | nil => intro i l h; simp [firstRun] at h
  | cons c rest ih =>
    intro i l h
    by_cases hc : p c
    · simp only [firstRun, if_pos hc, Option.some.injEq, Prod.mk.injEq] at h
      obtain ⟨rfl, rfl⟩ := h
      simpa using takeWhile_length_below p (c :: rest)
    · simp only [firstRun, if_neg hc, Option.map_eq_some'] at h
      obtain ⟨⟨i', l'⟩, hr, heq⟩ := h
      obtain ⟨rfl, rfl⟩ := Prod.mk.injEq .. ▸ heq
      have := ih i' l' hr
      simp only [List.length_cons]
      omega

/-- C2: `acceptNextWord` stops at the first whitespace run or at the
word-regex boundary, whichever is shorter; in particular, for remaining ghost
text "hello world" with word class `\w`, the committed prefix is exactly
"hello" (5 characters), not the full text. -/
theorem acceptNextWordBoundarySpec :
    (∀ (isWordChar : Char → Bool) (text : List Char),
      acceptNextWordBoundary isWordChar text =
        min (wordStopIndex isWordChar text) (wsStopIndex text)) ∧
    acceptNextWordBoundary isWordCharW ("hello world".toList) = 5 ∧
    ("hello world".toList).take 5 = "hello".toList ∧
    acceptNextWordBoundary isWordCharW ("hello world".toList) ≠
      ("hello world".toList).length := by
  refine ⟨?_, by decide, by decide, by decide⟩
  intro isWordChar text
  unfold acceptNextWordBoundary acceptNextWordIndex wordStopIndex wsStopIndex
  cases h1 : firstRun isWordChar text with
  | none =>
    cases h2 : firstRun isWsChar text with
    | none => simp
    | some r2 =>
      obtain ⟨i2, l2⟩ := r2
      have hb2 := firstRun_le isWsChar text i2 l2 h2
      simp only []
      split <;> omega
  | some r =>
    obtain ⟨i, l⟩ := r
    have hb := firstRun_le isWordChar text i l h1
    cases h2 : firstRun isWsChar text with
    | none =>
      simp only []
      split <;> omega
    | some r2 =>
      obtain ⟨i2, l2⟩ := r2
      have hb2 := firstRun_le isWsChar text i2 l2 h2
      simp only []
      split <;> split <;> omega

/-- A filtered inline-completion candidate, reduced to the semantic id used
for selection tracking. -/
structure Cand where
  semanticId : String
  deriving DecidableEq, Repr

/-- Embeds `Array.prototype.findIndex` (the absent case as `none` instead of
-1). -/
def findIndexAux (p : Cand → Bool) : List Cand → Option Nat
  | [] => none
  | c :: rest => if p c then some 0 else (findIndexAux p rest).map (· + 1)

/-- Embeds `selectedInlineCompletionIndex`: resolve the stored semantic id in
the filtered list; on a miss reset the stored id and fall back to index 0.
Returns the stored id after the read together with the index.  The source's
guard comparing the observable object itself (not its value) against
`undefined` is always false, so the lookup always runs; a stored value of
`undefined` matches no candidate and lands in the miss branch either way. -/
def selectedIndexCompute (storedId : Option String) (filtered : List Cand) :
    Option String × Nat :=
  match findIndexAux (fun v => storedId == some v.semanticId) filtered with
  | none => (none, 0)
  | some i => (storedId, i)

/-- Embeds `selectedInlineCompletion`: the filtered candidate at the computed
index. -/
def selectedCompletionCompute (storedId : Option String) (filtered : List Cand) :
    Option Cand :=
  filtered.get? (selectedIndexCompute storedId filtered).2

/-- Embeds `_deltaSelectedInlineCompletionIndex`: advance the stored semantic
id cyclically by `delta` over the filtered list; with no candidates, clear the
stored id.  For the deltas used (1 and -1) the JavaScript remainder operand is
nonnegative, where the JavaScript remainder and `Int.emod` agree. -/
def deltaSelectedInlineCompletionIndex (delta : Int) (filtered : List Cand)
    (storedId : Option String) : Option String :=
  if 0 < filtered.length then
    match filtered.get?
        ((((selectedIndexCompute storedId filtered).2 : Int) + delta +
            (filtered.length : Int)) % (filtered.length : Int)).toNat with
    | some c => some c.semanticId
    | none => none
  else none

theorem findIndexAux_none (p : Cand → Bool) :
    ∀ l : List Cand, findIndexAux p l = none → ∀ c ∈ l, p c = false := by
  intro l
  induction l with
  | nil => intro _ c hc; cases hc
  | cons x rest ih =>
    intro h c hc
    by_cases hx : p x
    · simp [findIndexAux, hx] at h
    · simp only [findIndexAux, if_neg hx, Option.map_eq_none'] at h
      rcases List.mem_cons.mp hc with rfl | hc'
      · simpa using hx
      · exact ih h c hc'

theorem findIndexAux_some (p : Cand → Bool) :
    ∀ (l : List Cand) (i : Nat), findIndexAux p l = some i →
      ∃ c, l.get? i = some c ∧ p c = true ∧
        ∀ j, j < i → ∀ c', l.get? j = some c' → p c' = false := by
  intro l
  induction l with
  | nil => intro i h; simp [findIndexAux] at h
  | cons x rest ih =>
    intro i h
    by_cases hx : p x
    · simp only [findIndexAux, if_pos hx, Option.some.injEq] at h
      subst h
      exact ⟨x, rfl, hx, fun j hj => by omega⟩
    · simp only [findIndexAux, if_neg hx, Option.map_eq_some'] at h
      obtain ⟨i', hi', rfl⟩ := h
      obtain ⟨c, hc, hpc, hmin⟩ := ih i' hi'
      refine ⟨c, by simpa using hc, hpc, ?_⟩
      intro j hj c' hc'
      cases j with
      | zero =>
        simp only [List.get?_cons_zero, Option.some.injEq] at hc'
        subst hc'
        simpa using hx
      | succ j =>
        exact hmin j (by omega) c' (by simpa using hc')

theorem get?_some_lt {l : List Cand} {i : Nat} {c : Cand}
    (h : l.get? i = some c) : i < l.length := by
  by_contra hge
  rw [List.get?_eq_none.mpr (by omega)] at h
  cases h

/-- With pairwise distinct semantic ids, resolving the id of the element at
index `i` finds exactly index `i`. -/
theorem findIndexAux_self :
    ∀ (l : List Cand), (l.map Cand.semanticId).Nodup →
      ∀ (i : Nat) (c : Cand), l.get? i = some c →
        findIndexAux (fun v => some c.semanticId == some v.semanticId) l = some i := by
  intro l
  induction l with
  | nil => intro _ i c h; cases h
  | cons x rest ih =>
    intro hnd i c hc
    simp only [List.map_cons, List.nodup_cons] at hnd
    obtain ⟨hx_notin, hnd_rest⟩ := hnd
    cases i with
    | zero =>
      simp only [List.get?_cons_zero, Option.some.injEq] at hc
      subst hc
      simp [findIndexAux]
    | succ j =>
      simp only [List.get?_cons_succ] at hc
      have hmem : c ∈ rest := by
        have := List.get?_mem hc
        exact this
      have hne : c.semanticId ≠ x.semanticId := by
        intro heq
        exact hx_notin (heq ▸ List.mem_map_of_mem Cand.semanticId hmem)
      have hstep := ih hnd_rest j c hc
      simp only [findIndexAux]
      rw [if_neg (by simp [hne]), hstep]
      rfl

/-- Resolution always lands inside a non-empty filtered list. -/
theorem selectedIndex_lt (storedId : Option String) (filtered : List Cand)
    (h : filtered ≠ []) :
    (selectedIndexCompute storedId filtered).2 < filtered.length := by
  unfold selectedIndexCompute
  cases hf : findIndexAux (fun v => storedId == some v.semanticId) filtered with
  | none => simpa using List.length_pos.mpr h
  | some i =>
    obtain ⟨c, hc, _, _⟩ := findIndexAux_some _ filtered i hf
    simpa using get?_some_lt hc

/-- C3: when a candidate with the stored semantic id exists in the filtered
list, the computed index is its (first) position and the stored id is kept, so
selection tracks the candidate by identity even when its position changes
between batches; when no candidate carries the id, the stored id is reset to
`undefined` and index 0 is returned as a display fallback. -/
theorem selectedIndexResolutionSpec (storedId : Option String)
    (filtered : List Cand) :
    ((∃ c ∈ filtered, storedId = some c.semanticId) →
      (selectedIndexCompute storedId filtered).1 = storedId ∧
      ∃ c, filtered.get? (selectedIndexCompute storedId filtered).2 = some c ∧
        storedId = some c.semanticId ∧
        ∀ j, j < (selectedIndexCompute storedId filtered).2 →
          ∀ c', filtered.get? j = some c' → storedId ≠ some c'.semanticId) ∧
    ((¬ ∃ c ∈ filtered, storedId = some c.semanticId) →
      selectedIndexCompute storedId filtered = (none, 0)) := by
  constructor
  · rintro ⟨c0, hc0, hid⟩
    cases hf : findIndexAux (fun v => storedId == some v.semanticId) filtered with
    | none =>
      exfalso
      have := findIndexAux_none _ filtered hf c0 hc0
      rw [hid] at this
      simp at this
    | some i =>
      obtain ⟨c, hc, hpc, hmin⟩ := findIndexAux_some _ filtered i hf
      unfold selectedIndexCompute
      rw [hf]
      refine ⟨rfl, c, hc, eq_of_beq hpc, ?_⟩
      intro j hj c' hc' heq
      have := hmin j hj c' hc'
      rw [heq] at this
      simp at this
  · intro hno
    cases hf : findIndexAux (fun v => storedId == some v.semanticId) filtered with
    | none =>
      unfold selectedIndexCompute
      rw [hf]
    | some i =>
      exfalso
      obtain ⟨c, hc, hpc, _⟩ := findIndexAux_some _ filtered i hf
      exact hno ⟨c, List.get?_mem hc, eq_of_beq hpc⟩

/-- Concrete instance discharging the hypothesis of
`selectedIndexResolutionSpec` (present-id branch). -/
theorem selectedIndexResolutionSpecWitness :
    (∃ c ∈ [(⟨"a"⟩ : Cand), ⟨"b"⟩], (some "b" : Option String) = some c.semanticId) ∧
    ((selectedIndexCompute (some "b") [⟨"a"⟩, ⟨"b"⟩]).1 = some "b" ∧
      ∃ c, [(⟨"a"⟩ : Cand), ⟨"b"⟩].get?
          (selectedIndexCompute (some "b") [⟨"a"⟩, ⟨"b"⟩]).2 = some c ∧
        (some "b" : Option String) = some c.semanticId ∧
        ∀ j, j < (selectedIndexCompute (some "b") [⟨"a"⟩, ⟨"b"⟩]).2 →
          ∀ c', [(⟨"a"⟩ : Cand), ⟨"b"⟩].get? j = some c' →
            (some "b" : Option String) ≠ some c'.semanticId) :=
  ⟨by decide,
    (selectedIndexResolutionSpec (some "b") [⟨"a"⟩, ⟨"b"⟩]).1 (by decide)⟩

/-- C10: whenever the filtered list is non-empty, the computed index is in
bounds and a selected completion exists, for every stored-id state. -/
theorem selectionAlwaysDefinedSpec (storedId : Option String)
    (filtered : List Cand) (h : filtered ≠ []) :
    (selectedIndexCompute storedId filtered).2 < filtered.length ∧
    (selectedCompletionCompute storedId filtered).isSome = true := by
  have hlt := selectedIndex_lt storedId filtered h
  refine ⟨hlt, ?_⟩
  unfold selectedCompletionCompute
  rw [List.get?_eq_get hlt]
  rfl

/-- Concrete instance discharging the hypothesis of
`selectionAlwaysDefinedSpec`. -/
theorem selectionAlwaysDefinedSpecWitness :
    ([(⟨"a"⟩ : Cand)] ≠ []) ∧
    ((selectedIndexCompute none [(⟨"a"⟩ : Cand)]).2 < [(⟨"a"⟩ : Cand)].length ∧
      (selectedCompletionCompute none [(⟨"a"⟩ : Cand)]).isSome = true) :=
  ⟨by decide, selectionAlwaysDefinedSpec none [⟨"a"⟩] (by decide)⟩

/-- C8 counterexample: with filtered semantic ids [a, b, a] (a duplicated id)
and the original selection b at index 1, next() stores the id of index 2
(namely a), the stored id then resolves to the first occurrence of a
(index 0), and previous() from there lands the selection at index 0, not back
at index 1 — next() followed by previous() does not restore the original
selection, refuting the claim as stated for an unchanged, non-empty pool. -/
theorem nextPreviousCounterexample :
    (selectedIndexCompute (some "b") [(⟨"a"⟩ : Cand), ⟨"b"⟩, ⟨"a"⟩]).2 = 1 ∧
    (selectedIndexCompute
        (deltaSelectedInlineCompletionIndex (-1) [(⟨"a"⟩ : Cand), ⟨"b"⟩, ⟨"a"⟩]
          (deltaSelectedInlineCompletionIndex 1 [(⟨"a"⟩ : Cand), ⟨"b"⟩, ⟨"a"⟩]
            (some "b")))
        [(⟨"a"⟩ : Cand), ⟨"b"⟩, ⟨"a"⟩]).2 = 0 := by decide

theorem intAddModToNat (a n : Nat) :
    ((((a : Int)) + 1 + (n : Int)) % (n : Int)).toNat = (a + 1) % n := by
  have h1 : ((a : Int)) + 1 + (n : Int) = ((a + 1 + n : Nat) : Int) := by
    push_cast
    ring
  rw [h1, ← Int.natCast_mod, Int.toNat_natCast, Nat.add_mod_right]

theorem intSubModToNat (j n : Nat) (hn : 0 < n) :
    ((((j : Int)) + (-1) + (n : Int)) % (n : Int)).toNat = (j + n - 1) % n := by
  have h1 : ((j : Int)) + (-1) + (n : Int) = ((j + n - 1 : Nat) : Int) := by
    rw [Nat.cast_sub (by omega : 1 ≤ j + n)]
    push_cast
    ring
  rw [h1, ← Int.natCast_mod, Int.toNat_natCast]

theorem cycle_back (i0 n : Nat) (h : i0 < n) :
    ((i0 + 1) % n + n - 1) % n = i0 := by
  rcases Nat.lt_or_ge (i0 + 1) n with hlt | hge
  · rw [Nat.mod_eq_of_lt hlt]
    have h2 : i0 + 1 + n - 1 = i0 + n := by omega
    rw [h2, Nat.add_mod_right, Nat.mod_eq_of_lt h]
  · have he : i0 + 1 = n := by omega
    rw [he, Nat.mod_self]
    have h2 : 0 + n - 1 = i0 := by omega
    rw [h2, Nat.mod_eq_of_lt h]

theorem deltaSelected_eval (filtered : List Cand) (storedId : Option String)
    (delta : Int) (hn : 0 < filtered.length) (k : Nat)
    (hk : ((((selectedIndexCompute storedId filtered).2 : Int) + delta +
        (filtered.length : Int)) % (filtered.length : Int)).toNat = k)
    (hklt : k < filtered.length) :
    deltaSelectedInlineCompletionIndex delta filtered storedId =
      some (filtered.get ⟨k, hklt⟩).semanticId := by
  unfold deltaSelectedInlineCompletionIndex
  rw [if_pos hn, hk, List.get?_eq_get hklt]

theorem selectedIndex_resolve_get (filtered : List Cand)
    (hnd : (filtered.map Cand.semanticId).Nodup) (k : Nat)
    (hk : k < filtered.length) :
    selectedIndexCompute (some (filtered.get ⟨k, hk⟩).semanticId) filtered =
      (some (filtered.get ⟨k, hk⟩).semanticId, k) := by
  unfold selectedIndexCompute
  rw [findIndexAux_self filtered hnd k _ (List.get?_eq_get hk)]

/-- C8 amended: navigation advances the stored semantic id cyclically modulo
the filtered list length, and with zero candidates clears the stored id; when
the pool is unchanged, non-empty, and no two candidates share a semantic id
(ids resolve to their first occurrence), next() followed by previous()
restores the originally selected candidate. -/
theorem nextPreviousAmended (storedId : Option String) (filtered : List Cand)
    (hnd : (filtered.map Cand.semanticId).Nodup) (hne : filtered ≠ []) :
    (selectedIndexCompute
        (deltaSelectedInlineCompletionIndex (-1) filtered
          (deltaSelectedInlineCompletionIndex 1 filtered storedId))
        filtered).2 = (selectedIndexCompute storedId filtered).2 ∧
    ∀ (d : Int) (id : Option String),
      deltaSelectedInlineCompletionIndex d [] id = none := by
  refine ⟨?_, fun d id => by simp [deltaSelectedInlineCompletionIndex]⟩
  have hn : 0 < filtered.length := List.length_pos.mpr hne
  have hi0 : (selectedIndexCompute storedId filtered).2 < filtered.length :=
    selectedIndex_lt storedId filtered hne
  set n := filtered.length with hndef
  set i0 := (selectedIndexCompute storedId filtered).2 with hi0def
  have hlt1 : (i0 + 1) % n < n := Nat.mod_lt _ hn
  have hnext := deltaSelected_eval filtered storedId 1 hn ((i0 + 1) % n)
    (intAddModToNat i0 n) hlt1
  rw [hnext]
  have hres1 := selectedIndex_resolve_get filtered hnd ((i0 + 1) % n) hlt1
  have hlt2 : ((i0 + 1) % n + n - 1) % n < n := Nat.mod_lt _ hn
  have h2pre : ((((selectedIndexCompute
      (some (filtered.get ⟨(i0 + 1) % n, hlt1⟩).semanticId) filtered).2 : Int) +
        (-1) + (n : Int)) % (n : Int)).toNat = ((i0 + 1) % n + n - 1) % n := by
    rw [hres1]
    exact intSubModToNat ((i0 + 1) % n) n hn
  have hprev := deltaSelected_eval filtered
    (some (filtered.get ⟨(i0 + 1) % n, hlt1⟩).semanticId) (-1) hn
    (((i0 + 1) % n + n - 1) % n) h2pre hlt2
  rw [hprev]
  have hres2 := selectedIndex_resolve_get filtered hnd
    (((i0 + 1) % n + n - 1) % n) hlt2
  rw [hres2]
  exact cycle_back i0 n hi0

/-- Concrete instance discharging the hypotheses of `nextPreviousAmended`. -/
theorem nextPreviousAmendedWitness :
    (([(⟨"a"⟩ : Cand), ⟨"b"⟩].map Cand.semanticId).Nodup ∧
      [(⟨"a"⟩ : Cand), ⟨"b"⟩] ≠ []) ∧
    ((selectedIndexCompute
        (deltaSelectedInlineCompletionIndex (-1) [(⟨"a"⟩ : Cand), ⟨"b"⟩]
          (deltaSelectedInlineCompletionIndex 1 [(⟨"a"⟩ : Cand), ⟨"b"⟩]
            (some "a")))
        [(⟨"a"⟩ : Cand), ⟨"b"⟩]).2 =
      (selectedIndexCompute (some "a") [(⟨"a"⟩ : Cand), ⟨"b"⟩]).2 ∧
    ∀ (d : Int) (id : Option String),
      deltaSelectedInlineCompletionIndex d [] id = none) :=
  ⟨⟨by decide, by decide⟩,
    nextPreviousAmended (some "a") [⟨"a"⟩, ⟨"b"⟩] (by decide) (by decide)⟩

/-- The external effects performed by the accept paths, in program order.
`resetToIdle` stands for the single transaction that clears the source batch
and sets the active flag to false. -/
inductive Event where
  | pushUndoStop
  | executeEdits
  | setPosition
  | snippetInsert
  | setSelections
  | addRef
  | resetToIdle
  | executeCommand
  | reportError
  | removeRef
  | partialAcceptNotify (chars : Nat)
  deriving DecidableEq, Repr

/-- Index of the first occurrence of an event in a trace (trace length when
absent). -/
def eventIdx : List Event → Event → Nat
  | [], _ => 0
  | x :: rest, e => if x = e then 0 else eventIdx rest e + 1

/-- A ghost-text part: the column it is rendered at and its text. -/
structure GhostPart where
  column : Nat
  text : List Char
  deriving DecidableEq, Repr

/-- The primary ghost text: its line number and parts. -/
structure GhostTextM where
  lineNumber : Nat
  parts : List GhostPart
  deriving DecidableEq, Repr

/-- Modelled from the spec: `GhostText.isEmpty` (not part of the sampled
sources) — a ghost text is empty when it renders no characters. -/
def ghostIsEmpty (g : GhostTextM) : Bool :=
  g.parts.all (fun p => p.text.isEmpty)

/-- The fields of the selected inline completion that drive the accept
protocol. -/
structure Completion where
  range : Rng
  insertText : List Char
  filterText : List Char
  snippetInfo : Bool
  command : Option Nat
  hasPartialAcceptHook : Bool
  deriving DecidableEq, Repr

/-- The `state` value read by the accept paths. -/
structure StateS where
  primaryGhostText : GhostTextM
  inlineCompletion : Option Completion
  deriving DecidableEq, Repr

/-- The inputs of an accept invocation: whether the editor passed in is bound
to this model's text model, the current state, whether the post-accept command
(if any) fails when executed, the document lines, and the live cursors. -/
structure AcceptEnv where
  editorModelIsSame : Bool
  state : Option StateS
  commandFails : Bool
  doc : List (List Char)
  selections : List Pos
  deriving DecidableEq, Repr

/-- The document's lines joined into one flat LF text. -/
def joinLines : List (List Char) → List Char
  | [] => []
  | [l] => l
  | l :: ls => l ++ '\n' :: joinLines ls

/-- Split a flat LF text back into lines. -/
def splitLines : List Char → List (List Char)
  | [] => [[]]
  | c :: rest =>
    if c = '\n' then [] :: splitLines rest
    else
      match splitLines rest with
      | [] => [[c]]
      | l :: ls => (c :: l) :: ls

/-- Offset of the start of a 1-based line in the flat LF text. -/
def lineStartOff (doc : List (List Char)) (ln : Nat) : Nat :=
  ((doc.take (ln - 1)).map List.length).sum + (ln - 1)

/-- Offset of a position in the flat LF text. -/
def posToOff (doc : List (List Char)) (p : Pos) : Nat :=
  lineStartOff doc p.line + (p.col - 1)

/-- Replace one flat range (start offset, end offset, replacement). -/
def applyFlatEdit (t : List Char) (e : Nat × Nat × List Char) : List Char :=
  t.take e.1 ++ e.2.2 ++ t.drop e.2.1

/-- An edit's flat form in a given document. -/
def flatEditOf (doc : List (List Char)) (e : STE) : Nat × Nat × List Char :=
  (posToOff doc e.range.start, posToOff doc e.range.stop, e.text)

/-- Insert a flat edit into a list kept sorted by descending start offset. -/
def insertFlatDesc (e : Nat × Nat × List Char) :
    List (Nat × Nat × List Char) → List (Nat × Nat × List Char)
  | [] => [e]
  | f :: rest =>
    if f.1 ≤ e.1 then e :: f :: rest
    else f :: insertFlatDesc e rest

/-- Sort flat edits by descending start offset (insertion sort). -/
def sortFlatDesc : List (Nat × Nat × List Char) → List (Nat × Nat × List Char)
  | [] => []
  | e :: rest => insertFlatDesc e (sortFlatDesc rest)

/-- Modelled from the spec: the editor's atomic edit-application primitive
(`editor.executeEdits`, an external collaborator) with LF line endings —
non-overlapping edits are applied to the flat text from right to left so
earlier offsets stay valid, and the result is split back into lines (so
inserted newlines create lines, as in the editor). -/
def applyEditsDoc (doc : List (List Char)) (edits : List STE) : List (List Char) :=
  splitLines
    ((sortFlatDesc (edits.map (flatEditOf doc))).foldl applyFlatEdit
      (joinLines doc))

/-- Modelled from the spec: the text model's `getValueInRange` with LF line
endings (an external collaborator), as a slice of the flat LF text. -/
def getValueInRangeM (doc : List (List Char)) (s e : Pos) : List Char :=
  ((joinLines doc).drop (posToOff doc s)).take (posToOff doc e - posToOff doc s)

/-- Modelled from the spec: `lengthOfText` from the inline-completions utils
(not part of the sampled sources) — the line/column extent of a text. -/
def lengthOfText (text : List Char) : Pos :=
  text.foldl
    (fun p c => if c = '\n' then ⟨p.line + 1, 1⟩ else ⟨p.line, p.col + 1⟩)
    ⟨1, 1⟩

/-- Modelled from the spec: `addPositions` from the inline-completions utils
(not part of the sampled sources). -/
def addPositions (p1 p2 : Pos) : Pos :=
  ⟨p1.line + p2.line - 1, if p2.line = 1 then p1.col + p2.col - 1 else p2.col⟩

/-- Embeds `accept(editor)` as the trace of external effects it performs;
`Except.error` is the thrown `BugIndicatingError`, and `.ok []` is the silent
early return. -/
def acceptRun (env : AcceptEnv) : Except Unit (List Event) :=
  if env.editorModelIsSame = false then .error ()
  else
    match env.state with
    | none => .ok []
    | some st =>
      if ghostIsEmpty st.primaryGhostText || st.inlineCompletion.isNone then
        .ok []
      else
        match st.inlineCompletion with
        | none => .ok []
        | some c =>
          let editPhase :=
            if c.snippetInfo then
              [Event.pushUndoStop, Event.executeEdits, Event.setPosition,
                Event.snippetInsert]
            else
              [Event.pushUndoStop, Event.executeEdits, Event.setSelections]
          let refPhase := if c.command.isSome then [Event.addRef] else []
          let commandPhase :=
            if c.command.isSome then
              Event.executeCommand ::
                ((if env.commandFails then [Event.reportError] else []) ++
                  [Event.removeRef])
            else []
          .ok (editPhase ++ refPhase ++ Event.resetToIdle :: commandPhase)

/-- The character count handed to the provider's partial-accept hook: the
partial edit is built from the completion and the boundary index `k`, applied
through the editor, and the length of the text the model then holds in the
accepted range is reported. -/
def partialNotifiedCount (env : AcceptEnv) (c : Completion) (position : Pos)
    (text : List Char) (k : Nat) : Nat :=
  let partialText := text.take k
  let replaceRange : Rng := ⟨c.range.start, position⟩
  let newText := tsSubstring c.insertText 0
    ((position.col : Int) - (c.range.start.col : Int) + (k : Int))
  let edits := getEditsList env.doc env.selections ⟨replaceRange, newText⟩
  let newDoc := applyEditsDoc env.doc edits
  let acceptedEnd := addPositions position (lengthOfText partialText)
  (getValueInRangeM newDoc c.range.start acceptedEnd).length

/-- The body of `_acceptNext`'s partial-commit path: the effect trace
(ref-count increment, undo stop, edits, selections, optional partial-accept
notification with the accepted character count, ref-count decrement). -/
def partialTraceOf (env : AcceptEnv) (c : Completion) (position : Pos)
    (text : List Char) (k : Nat) : List Event :=
  Event.addRef :: Event.pushUndoStop :: Event.executeEdits ::
    Event.setSelections ::
    ((if c.hasPartialAcceptHook then
        [Event.partialAcceptNotify (partialNotifiedCount env c position text k)]
      else []) ++ [Event.removeRef])

/-- Outcome of `_acceptNext`: silent no-op, fall back to a full accept (with
that accept's trace), or a partial accept (with its trace). -/
inductive AcceptNextResult where
  | noop
  | fellBack (trace : List Event)
  | didPartialAccept (trace : List Event)
  deriving DecidableEq, Repr

/-- Embeds `_acceptNext(editor, getAcceptUntilIndex)` (the shared body of
`acceptNextWord` and `acceptNextLine`). -/
def acceptNextRun (env : AcceptEnv)
    (getAcceptUntilIndex : Pos → List Char → Nat) :
    Except Unit AcceptNextResult :=
  if env.editorModelIsSame = false then .error ()
  else
    match env.state with
    | none => .ok .noop
    | some st =>
      if ghostIsEmpty st.primaryGhostText || st.inlineCompletion.isNone then
        .ok .noop
      else
        match st.inlineCompletion with
        | none => .ok .noop
        | some c =>
          if c.snippetInfo = true ∨ c.filterText ≠ c.insertText then
            (acceptRun env).map AcceptNextResult.fellBack
          else
            match st.primaryGhostText.parts with
            | [] => .ok .noop
            | firstPart :: restParts =>
              let position : Pos :=
                ⟨st.primaryGhostText.lineNumber, firstPart.column⟩
              let text := firstPart.text
              let acceptUntilIndexExclusive := getAcceptUntilIndex position text
              if acceptUntilIndexExclusive = text.length ∧ restParts = [] then
                (acceptRun env).map AcceptNextResult.fellBack
              else
                .ok (.didPartialAccept
                  (partialTraceOf env c position text acceptUntilIndexExclusive))

/-- C7: invoking accept (or a partial accept, hence acceptNextWord and
acceptNextLine) against an editor whose model is not the text model this
inline-completions model is bound to throws a `BugIndicatingError` before any
state is read or any effect is performed: the result is the error with no
trace of effects, and nothing catches it. -/
theorem mismatchedEditorFatalSpec (env : AcceptEnv)
    (f : Pos → List Char → Nat) (h : env.editorModelIsSame = false) :
    acceptRun env = .error () ∧ acceptNextRun env f = .error () := by
  constructor
  · simp [acceptRun, h]
  · simp [acceptNextRun, h]

/-- Concrete instance discharging the hypothesis of
`mismatchedEditorFatalSpec`. -/
theorem mismatchedEditorFatalSpecWitness :
    (AcceptEnv.editorModelIsSame ⟨false, none, false, [], []⟩ = false) ∧
    (acceptRun ⟨false, none, false, [], []⟩ = .error () ∧
      acceptNextRun ⟨false, none, false, [], []⟩ (fun _ t => t.length) =
        .error ()) :=
  ⟨rfl, mismatchedEditorFatalSpec ⟨false, none, false, [], []⟩
    (fun _ t => t.length) rfl⟩

/-- C9: on the correctly bound editor, when there is no current state, or the
primary ghost text is empty, or no inline completion is selected, accept and
the partial accepts return silently with an empty effect trace: no edit, no
state change, no ref-count change, no command, no provider hook, no error. -/
theorem silentNoopSpec (env : AcceptEnv) (f : Pos → List Char → Nat)
    (hsame : env.editorModelIsSame = true)
    (hguard : env.state = none ∨ ∃ st, env.state = some st ∧
      (ghostIsEmpty st.primaryGhostText = true ∨ st.inlineCompletion = none)) :
    acceptRun env = .ok [] ∧ acceptNextRun env f = .ok .noop := by
  rcases hguard with hnone | ⟨st, hst, hg⟩
  · constructor
    · simp [acceptRun, hsame, hnone]
    · simp [acceptNextRun, hsame, hnone]
  · rcases hg with hg | hg
    · constructor
      · simp [acceptRun, hsame, hst, hg]
      · simp [acceptNextRun, hsame, hst, hg]
    · constructor
      · simp [acceptRun, hsame, hst, hg]
      · simp [acceptNextRun, hsame, hst, hg]

/-- Concrete instance discharging the hypotheses of `silentNoopSpec`
(empty ghost text with a selected completion absent). -/
theorem silentNoopSpecWitness :
    (AcceptEnv.editorModelIsSame ⟨true, some ⟨⟨1, []⟩, none⟩, false, [], []⟩ =
        true) ∧
    (acceptRun ⟨true, some ⟨⟨1, []⟩, none⟩, false, [], []⟩ = .ok [] ∧
      acceptNextRun ⟨true, some ⟨⟨1, []⟩, none⟩, false, [], []⟩
        (fun _ t => t.length) = .ok .noop) :=
  ⟨rfl, silentNoopSpec ⟨true, some ⟨⟨1, []⟩, none⟩, false, [], []⟩
    (fun _ t => t.length) rfl
    (Or.inr ⟨⟨⟨1, []⟩, none⟩, rfl, Or.inl rfl⟩)⟩

theorem acceptRun_eq (env : AcceptEnv) (st : StateS) (c : Completion)
    (hsame : env.editorModelIsSame = true) (hst : env.state = some st)
    (hghost : ghostIsEmpty st.primaryGhostText = false)
    (hc : st.inlineCompletion = some c) :
    acceptRun env = .ok
      ((if c.snippetInfo then
          [Event.pushUndoStop, Event.executeEdits, Event.setPosition,
            Event.snippetInsert]
        else [Event.pushUndoStop, Event.executeEdits, Event.setSelections]) ++
        (if c.command.isSome then [Event.addRef] else []) ++
        Event.resetToIdle ::
          (if c.command.isSome then
            Event.executeCommand ::
              ((if env.commandFails then [Event.reportError] else []) ++
                [Event.removeRef])
          else [])) := by
  simp [acceptRun, hsame, hst, hghost, hc]

theorem acceptNextRun_fallbackA (env : AcceptEnv) (st : StateS)
    (c : Completion) (f : Pos → List Char → Nat)
    (hsame : env.editorModelIsSame = true) (hst : env.state = some st)
    (hghost : ghostIsEmpty st.primaryGhostText = false)
    (hc : st.inlineCompletion = some c)
    (hcond : c.snippetInfo = true ∨ c.filterText ≠ c.insertText) :
    acceptNextRun env f = (acceptRun env).map AcceptNextResult.fellBack := by
  simp only [acceptNextRun, hsame, hst, hc]
  rw [if_neg (by simp), hghost]
  simp only [Option.isSome_some, Bool.false_or, Bool.or_false, if_false,
    Bool.false_eq_true, if_pos hcond]
  simp

theorem acceptNextRun_fallbackB (env : AcceptEnv) (st : StateS)
    (c : Completion) (f : Pos → List Char → Nat) (fp : GhostPart)
    (rest : List GhostPart)
    (hsame : env.editorModelIsSame = true) (hst : env.state = some st)
    (hghost : ghostIsEmpty st.primaryGhostText = false)
    (hc : st.inlineCompletion = some c)
    (hsnip : c.snippetInfo = false) (hfilt : c.filterText = c.insertText)
    (hparts : st.primaryGhostText.parts = fp :: rest)
    (hfull : f ⟨st.primaryGhostText.lineNumber, fp.column⟩ fp.text =
      fp.text.length)
    (hrest : rest = []) :
    acceptNextRun env f = (acceptRun env).map AcceptNextResult.fellBack := by
  simp only [acceptNextRun, hsame, hst, hc]
  rw [if_neg (by simp), hghost]
  simp only [Option.isSome_some, Bool.false_or, Bool.or_false, if_false,
    Bool.false_eq_true]
  rw [if_neg (by simp [hsnip, hfilt]), hparts]
  simp only [hfull, hrest, and_self, if_true]
  split <;> rfl

theorem acceptNextRun_partialCase (env : AcceptEnv) (st : StateS)
    (c : Completion) (f : Pos → List Char → Nat) (fp : GhostPart)
    (rest : List GhostPart)
    (hsame : env.editorModelIsSame = true) (hst : env.state = some st)
    (hghost : ghostIsEmpty st.primaryGhostText = false)
    (hc : st.inlineCompletion = some c)
    (hsnip : c.snippetInfo = false) (hfilt : c.filterText = c.insertText)
    (hparts : st.primaryGhostText.parts = fp :: rest)
    (hnotfull : ¬ (f ⟨st.primaryGhostText.lineNumber, fp.column⟩ fp.text =
        fp.text.length ∧ rest = [])) :
    acceptNextRun env f = .ok (.didPartialAccept
      (partialTraceOf env c ⟨st.primaryGhostText.lineNumber, fp.column⟩
        fp.text
        (f ⟨st.primaryGhostText.lineNumber, fp.column⟩ fp.text))) := by
  simp only [acceptNextRun, hsame, hst, hc]
  rw [if_neg (by simp), hghost]
  simp only [Option.isSome_some, Bool.false_or, Bool.or_false, if_false,
    Bool.false_eq_true]
  rw [if_neg (by simp [hsnip, hfilt]), hparts]
  simp only [if_neg hnotfull]
  rw [if_neg (show ¬ (c.snippetInfo = true ∨ c.filterText ≠ c.insertText) from
    by simp [hsnip, hfilt])]

/-- C5: in `accept()`, once the guards pass, the edits are applied, then the
session is reset to Idle in a single transaction strictly before any
post-accept command runs; a present command is then executed, an uncaught
failure is reported after the command and before the ref-count release, and
neither failure nor success rolls back the applied edit or escapes as an
error. -/
theorem acceptResetBeforeCommandSpec (env : AcceptEnv) (st : StateS)
    (c : Completion)
    (hsame : env.editorModelIsSame = true) (hst : env.state = some st)
    (hghost : ghostIsEmpty st.primaryGhostText = false)
    (hc : st.inlineCompletion = some c) :
    ∃ tr, acceptRun env = .ok tr ∧
      Event.executeEdits ∈ tr ∧ Event.resetToIdle ∈ tr ∧
      eventIdx tr Event.executeEdits < eventIdx tr Event.resetToIdle ∧
      (c.command.isSome = true →
        Event.executeCommand ∈ tr ∧ Event.removeRef ∈ tr ∧
        eventIdx tr Event.resetToIdle < eventIdx tr Event.executeCommand ∧
        eventIdx tr Event.executeCommand < eventIdx tr Event.removeRef ∧
        ((Event.reportError ∈ tr) ↔ env.commandFails = true) ∧
        (env.commandFails = true →
          eventIdx tr Event.executeCommand < eventIdx tr Event.reportError ∧
          eventIdx tr Event.reportError < eventIdx tr Event.removeRef)) ∧
      (c.command.isSome = false →
        Event.executeCommand ∉ tr ∧ Event.reportError ∉ tr) := by
  rw [acceptRun_eq env st c hsame hst hghost hc]
  refine ⟨_, rfl, ?_⟩
  cases hsn : c.snippetInfo <;> rcases hcm : c.command with _ | k <;>
    cases hcf : env.commandFails <;>
    simp only [hsn, hcm, hcf, Option.isSome_some, Option.isSome_none] <;>
    decide

/-- Concrete instance discharging the hypotheses of
`acceptResetBeforeCommandSpec` (command present and failing). -/
theorem acceptResetBeforeCommandSpecWitness :
    (AcceptEnv.editorModelIsSame
        ⟨true, some ⟨⟨1, [⟨1, ['x']⟩]⟩,
          some ⟨⟨⟨1,1⟩, ⟨1,2⟩⟩, ['x'], ['x'], false, some 0, false⟩⟩,
          true, [['x']], [⟨1,1⟩]⟩ = true) ∧
    (∃ tr, acceptRun
        ⟨true, some ⟨⟨1, [⟨1, ['x']⟩]⟩,
          some ⟨⟨⟨1,1⟩, ⟨1,2⟩⟩, ['x'], ['x'], false, some 0, false⟩⟩,
          true, [['x']], [⟨1,1⟩]⟩ = .ok tr ∧
      Event.executeEdits ∈ tr ∧ Event.resetToIdle ∈ tr ∧
      eventIdx tr Event.executeEdits < eventIdx tr Event.resetToIdle ∧
      ((Completion.command
          ⟨⟨⟨1,1⟩, ⟨1,2⟩⟩, ['x'], ['x'], false, some 0, false⟩).isSome = true →
        Event.executeCommand ∈ tr ∧ Event.removeRef ∈ tr ∧
        eventIdx tr Event.resetToIdle < eventIdx tr Event.executeCommand ∧
        eventIdx tr Event.executeCommand < eventIdx tr Event.removeRef ∧
        ((Event.reportError ∈ tr) ↔
          AcceptEnv.commandFails
            ⟨true, some ⟨⟨1, [⟨1, ['x']⟩]⟩,
              some ⟨⟨⟨1,1⟩, ⟨1,2⟩⟩, ['x'], ['x'], false, some 0, false⟩⟩,
              true, [['x']], [⟨1,1⟩]⟩ = true) ∧
        (AcceptEnv.commandFails
            ⟨true, some ⟨⟨1, [⟨1, ['x']⟩]⟩,
              some ⟨⟨⟨1,1⟩, ⟨1,2⟩⟩, ['x'], ['x'], false, some 0, false⟩⟩,
              true, [['x']], [⟨1,1⟩]⟩ = true →
          eventIdx tr Event.executeCommand < eventIdx tr Event.reportError ∧
          eventIdx tr Event.reportError < eventIdx tr Event.removeRef)) ∧
      ((Completion.command
          ⟨⟨⟨1,1⟩, ⟨1,2⟩⟩, ['x'], ['x'], false, some 0, false⟩).isSome = false →
        Event.executeCommand ∉ tr ∧ Event.reportError ∉ tr)) :=
  ⟨rfl, acceptResetBeforeCommandSpec
    ⟨true, some ⟨⟨1, [⟨1, ['x']⟩]⟩,
      some ⟨⟨⟨1,1⟩, ⟨1,2⟩⟩, ['x'], ['x'], false, some 0, false⟩⟩,
      true, [['x']], [⟨1,1⟩]⟩
    ⟨⟨1, [⟨1, ['x']⟩]⟩, some ⟨⟨⟨1,1⟩, ⟨1,2⟩⟩, ['x'], ['x'], false, some 0, false⟩⟩
    ⟨⟨⟨1,1⟩, ⟨1,2⟩⟩, ['x'], ['x'], false, some 0, false⟩
    rfl rfl (by decide) rfl⟩

/-- A full-accept scenario with a post-accept command present. -/
def cC4 : Completion := ⟨⟨⟨1,1⟩, ⟨1,2⟩⟩, ['x'], ['x'], false, some 0, false⟩

def stC4 : StateS := ⟨⟨1, [⟨1, ['x']⟩]⟩, some cC4⟩

def envC4 : AcceptEnv := ⟨true, some stC4, false, [['x']], [⟨1,1⟩]⟩

def refCountTraceC : List Event :=
  [Event.pushUndoStop, Event.executeEdits, Event.setSelections, Event.addRef,
   Event.resetToIdle, Event.executeCommand, Event.removeRef]

instance : DecidableEq (Except Unit (List Event)) := fun a b =>
  match a, b with
  | .ok x, .ok y =>
    if h : x = y then isTrue (by rw [h]) else isFalse (by simp [h])
  | .error x, .error y =>
    isTrue (by rw [show x = y from rfl])
  | .ok _, .error _ => isFalse (by simp)
  | .error _, .ok _ => isFalse (by simp)

/-- C4 counterexample: in the full accept path with a command present, the
source batch ref-count is incremented only after the edit has been applied:
`accept` performs `executeEdits` strictly before `addRef`, refuting the claim
that every accept path increments the ref-count before the edit is applied. -/
theorem refCountOrderCounterexample :
    acceptRun envC4 = .ok refCountTraceC ∧
    Event.addRef ∈ refCountTraceC ∧ Event.executeEdits ∈ refCountTraceC ∧
    eventIdx refCountTraceC Event.executeEdits <
      eventIdx refCountTraceC Event.addRef ∧
    ¬ (eventIdx refCountTraceC Event.addRef <
        eventIdx refCountTraceC Event.executeEdits) := by decide

/-- C4 amended: in the full accept path, a candidate with a command has its
batch ref-count incremented after the edits are applied but before the state
reset and the command invocation, and decremented only after the command
settles; in the partial-accept path, the ref-count is incremented before the
edit is applied and decremented last, after the partial-accept notification
settles. -/
theorem refCountOrderAmended
    (env1 env2 : AcceptEnv) (st1 st2 : StateS) (c1 c2 : Completion)
    (f : Pos → List Char → Nat) (fp : GhostPart) (rest : List GhostPart)
    (h1same : env1.editorModelIsSame = true) (h1st : env1.state = some st1)
    (h1g : ghostIsEmpty st1.primaryGhostText = false)
    (h1c : st1.inlineCompletion = some c1)
    (h1cmd : c1.command.isSome = true)
    (h2same : env2.editorModelIsSame = true) (h2st : env2.state = some st2)
    (h2g : ghostIsEmpty st2.primaryGhostText = false)
    (h2c : st2.inlineCompletion = some c2)
    (h2snip : c2.snippetInfo = false) (h2filt : c2.filterText = c2.insertText)
    (h2parts : st2.primaryGhostText.parts = fp :: rest)
    (h2notfull : ¬ (f ⟨st2.primaryGhostText.lineNumber, fp.column⟩ fp.text =
        fp.text.length ∧ rest = [])) :
    (∃ tr, acceptRun env1 = .ok tr ∧
      eventIdx tr Event.executeEdits < eventIdx tr Event.addRef ∧
      eventIdx tr Event.addRef < eventIdx tr Event.resetToIdle ∧
      eventIdx tr Event.resetToIdle < eventIdx tr Event.executeCommand ∧
      eventIdx tr Event.executeCommand < eventIdx tr Event.removeRef ∧
      Event.addRef ∈ tr ∧ Event.removeRef ∈ tr) ∧
    (∃ tr, acceptNextRun env2 f = .ok (.didPartialAccept tr) ∧
      Event.addRef ∈ tr ∧ eventIdx tr Event.addRef = 0 ∧
      eventIdx tr Event.addRef < eventIdx tr Event.executeEdits ∧
      tr.getLast? = some Event.removeRef ∧
      (c2.hasPartialAcceptHook = true → ∃ n,
        Event.partialAcceptNotify n ∈ tr ∧
        eventIdx tr Event.executeEdits <
          eventIdx tr (Event.partialAcceptNotify n) ∧
        eventIdx tr (Event.partialAcceptNotify n) <
          eventIdx tr Event.removeRef)) := by
  constructor
  · rw [acceptRun_eq env1 st1 c1 h1same h1st h1g h1c]
    refine ⟨_, rfl, ?_⟩
    cases hsn : c1.snippetInfo <;> cases hcf : env1.commandFails <;>
      simp only [hsn, h1cmd, hcf] <;> decide
  · rw [acceptNextRun_partialCase env2 st2 c2 f fp rest h2same h2st h2g h2c
      h2snip h2filt h2parts h2notfull]
    refine ⟨_, rfl, ?_⟩
    unfold partialTraceOf
    cases hhook : c2.hasPartialAcceptHook <;>
      simp only [hhook, if_true, if_false, Bool.false_eq_true, List.nil_append]
    · refine ⟨by simp, by simp [eventIdx], by simp [eventIdx], rfl, ?_⟩
      intro h
      cases h
    · refine ⟨by simp, by simp [eventIdx], by simp [eventIdx], rfl, ?_⟩
      intro _
      refine ⟨partialNotifiedCount env2 c2
          ⟨st2.primaryGhostText.lineNumber, fp.column⟩ fp.text
          (f ⟨st2.primaryGhostText.lineNumber, fp.column⟩ fp.text),
        by simp, by simp [eventIdx], by simp [eventIdx]⟩

/-- A partial-accept scenario: document line "he", cursor at column 3, ghost
text "llo world", completion inserting "hello world" from column 1, with a
partial-accept hook and no command. -/
def cP : Completion :=
  ⟨⟨⟨1,1⟩, ⟨1,3⟩⟩, "hello world".toList, "hello world".toList, false, none, true⟩

def fpP : GhostPart := ⟨3, "llo world".toList⟩

def stP : StateS := ⟨⟨1, [fpP]⟩, some cP⟩

def envP : AcceptEnv := ⟨true, some stP, false, [['h','e']], [⟨1,3⟩]⟩

/-- The word boundary of `acceptNextWord` under the `\w` word definition. -/
def fW : Pos → List Char → Nat := fun _ t => acceptNextWordBoundary isWordCharW t

/-- Concrete instance discharging the hypotheses of `refCountOrderAmended`:
a full accept with a command, and a partial accept of "llo" out of
"llo world". -/
theorem refCountOrderAmendedWitness :
    (envC4.editorModelIsSame = true ∧ envC4.state = some stC4 ∧
      ghostIsEmpty stC4.primaryGhostText = false ∧
      stC4.inlineCompletion = some cC4 ∧ cC4.command.isSome = true ∧
      envP.editorModelIsSame = true ∧ envP.state = some stP ∧
      ghostIsEmpty stP.primaryGhostText = false ∧
      stP.inlineCompletion = some cP ∧ cP.snippetInfo = false ∧
      cP.filterText = cP.insertText ∧
      stP.primaryGhostText.parts = fpP :: [] ∧
      ¬ (fW ⟨stP.primaryGhostText.lineNumber, fpP.column⟩ fpP.text =
          fpP.text.length ∧ ([] : List GhostPart) = [])) ∧
    ((∃ tr, acceptRun envC4 = .ok tr ∧
      eventIdx tr Event.executeEdits < eventIdx tr Event.addRef ∧
      eventIdx tr Event.addRef < eventIdx tr Event.resetToIdle ∧
      eventIdx tr Event.resetToIdle < eventIdx tr Event.executeCommand ∧
      eventIdx tr Event.executeCommand < eventIdx tr Event.removeRef ∧
      Event.addRef ∈ tr ∧ Event.removeRef ∈ tr) ∧
    (∃ tr, acceptNextRun envP fW = .ok (.didPartialAccept tr) ∧
      Event.addRef ∈ tr ∧ eventIdx tr Event.addRef = 0 ∧
      eventIdx tr Event.addRef < eventIdx tr Event.executeEdits ∧
      tr.getLast? = some Event.removeRef ∧
      (cP.hasPartialAcceptHook = true → ∃ n,
        Event.partialAcceptNotify n ∈ tr ∧
        eventIdx tr Event.executeEdits <
          eventIdx tr (Event.partialAcceptNotify n) ∧
        eventIdx tr (Event.partialAcceptNotify n) <
          eventIdx tr Event.removeRef))) :=
  ⟨by decide,
    refCountOrderAmended envC4 envP stC4 stP cC4 cP fW fpP []
      rfl rfl rfl rfl rfl rfl rfl rfl rfl rfl rfl rfl (by decide)⟩

theorem lengthOfText_fold (t : List Char) (h : '\n' ∉ t) :
    ∀ p : Pos,
      t.foldl (fun p c => if c = '\n' then ⟨p.line + 1, 1⟩ else ⟨p.line, p.col + 1⟩) p =
        ⟨p.line, p.col + t.length⟩ := by
  induction t with
  | nil => intro p; simp
  | cons c rest ih =>
    intro p
    have hc : ¬ (c = '\n') := fun hcc => h (hcc ▸ List.mem_cons_self c rest)
    have hrest : '\n' ∉ rest := fun hm => h (List.mem_cons_of_mem c hm)
    simp only [List.foldl_cons, if_neg hc]
    rw [ih hrest]
    simp only [List.length_cons]
    congr 1
    omega

theorem lengthOfText_no_newline (t : List Char) (h : '\n' ∉ t) :
    lengthOfText t = ⟨1, t.length + 1⟩ := by
  unfold lengthOfText
  rw [lengthOfText_fold t h]
  simp [Pos.mk.injEq, Nat.add_comm]

theorem addPositions_single (p : Pos) (L : Nat) :
    addPositions p ⟨1, L + 1⟩ = ⟨p.line, p.col + L⟩ := by
  simp [addPositions]

theorem tsSubstring_zero (s : List Char) (m : Nat) (hm : m ≤ s.length) :
    tsSubstring s 0 (m : Int) = s.take m := by
  unfold tsSubstring tsClamp
  simp [Int.toNat_natCast, Nat.min_eq_right hm]

theorem getEditsList_single (doc : List (List Char)) (s0 : Pos) (e : STE) :
    getEditsList doc [s0] e = [e] := rfl

theorem splitLines_ne_nil : ∀ t : List Char, splitLines t ≠ [] := by
  intro t
  cases t with
  | nil => simp [splitLines]
  | cons c rest =>
    by_cases hc : c = '\n'
    · simp [splitLines, hc]
    · simp only [splitLines, if_neg hc]
      cases splitLines rest <;> simp

theorem splitLines_newline (t : List Char) :
    splitLines ('\n' :: t) = [] :: splitLines t := by
  simp [splitLines]

theorem splitLines_prepend (l : List Char) (hl : '\n' ∉ l) :
    ∀ t t0 ts, splitLines t = t0 :: ts →
      splitLines (l ++ t) = (l ++ t0) :: ts := by
  induction l with
  | nil => intro t t0 ts h; simpa using h
  | cons c cs ih =>
    intro t t0 ts h
    have hc : ¬ (c = '\n') := fun hcc => hl (hcc ▸ List.mem_cons_self c cs)
    have hcs : '\n' ∉ cs := fun hm => hl (List.mem_cons_of_mem c hm)
    have hrec := ih hcs t t0 ts h
    simp only [List.cons_append, splitLines, if_neg hc, List.append_eq]
    rw [hrec]

theorem joinLines_splitLines : ∀ t : List Char, joinLines (splitLines t) = t := by
  intro t
  induction t with
  | nil => rfl
  | cons c rest ih =>
    by_cases hc : c = '\n'
    · subst hc
      rw [splitLines_newline]
      cases h : splitLines rest with
      | nil => exact absurd h (splitLines_ne_nil rest)
      | cons l ls =>
        show '\n' :: joinLines (l :: ls) = '\n' :: rest
        rw [← h, ih]
    · simp only [splitLines, if_neg hc]
      cases h : splitLines rest with
      | nil => exact absurd h (splitLines_ne_nil rest)
      | cons l ls =>
        cases ls with
        | nil =>
          show c :: l = c :: rest
          have : joinLines [l] = rest := h ▸ ih
          simpa [joinLines] using this
        | cons m ms =>
          show (c :: l) ++ '\n' :: joinLines (m :: ms) = c :: rest
          have : joinLines (l :: m :: ms) = rest := h ▸ ih
          simp only [List.cons_append]
          rw [show l ++ '\n' :: joinLines (m :: ms) = joinLines (l :: m :: ms)
            from rfl, this]

theorem splitLines_join_prefix :
    ∀ (pre : List (List Char)), (∀ l ∈ pre, '\n' ∉ l) → ∀ t : List Char,
      splitLines ((pre.map (fun l => l ++ ['\n'])).join ++ t) =
        pre ++ splitLines t := by
  intro pre
  induction pre with
  | nil => intro _ t; simp
  | cons p ps ih =>
    intro hwf t
    have hp : '\n' ∉ p := hwf p (List.mem_cons_self p ps)
    have hps : ∀ l ∈ ps, '\n' ∉ l := fun l hl => hwf l (List.mem_cons_of_mem p hl)
    have harr : ((p :: ps).map (fun l => l ++ ['\n'])).join ++ t =
        p ++ ('\n' :: ((ps.map (fun l => l ++ ['\n'])).join ++ t)) := by
      simp [List.append_assoc]
    rw [harr,
      splitLines_prepend p hp _ _ _ (splitLines_newline _), ih hps t]
    simp

theorem joinLines_decomp :
    ∀ (pre doc' : List (List Char)), doc' ≠ [] →
      joinLines (pre ++ doc') =
        (pre.map (fun l => l ++ ['\n'])).join ++ joinLines doc' := by
  intro pre
  induction pre with
  | nil => intro doc' _; simp
  | cons p ps ih =>
    intro doc' hne
    cases hpp : ps ++ doc' with
    | nil =>
      exfalso
      rcases List.append_eq_nil.mp hpp with ⟨_, h2⟩
      exact hne h2
    | cons q qs =>
      rw [List.cons_append, hpp]
      show p ++ '\n' :: joinLines (q :: qs) = _
      rw [← hpp, ih doc' hne]
      simp [List.append_assoc]

theorem sum_map_len_newline :
    ∀ (l : List (List Char)),
      (l.map (fun x => (x ++ ['\n']).length)).sum =
        (l.map List.length).sum + l.length := by
  intro l
  induction l with
  | nil => simp
  | cons x xs ih =>
    simp only [List.map_cons, List.sum_cons]
    rw [ih]
    simp only [List.length_append, List.length_cons, List.length_nil]
    omega

theorem lineStartOff_eq (doc : List (List Char)) (ln : Nat)
    (h : ln - 1 ≤ doc.length) :
    lineStartOff doc ln =
      ((doc.take (ln - 1)).map (fun l => l ++ ['\n'])).join.length := by
  unfold lineStartOff
  rw [List.length_join, List.map_map]
  simp only [Function.comp_def]
  rw [sum_map_len_newline, List.length_take, Nat.min_eq_left h]

theorem mem_insertFlatDesc (e x : Nat × Nat × List Char) :
    ∀ l, x ∈ insertFlatDesc e l ↔ x = e ∨ x ∈ l := by
  intro l
  induction l with
  | nil => simp [insertFlatDesc]
  | cons f rest ih =>
    by_cases h : f.1 ≤ e.1
    · simp [insertFlatDesc, h]
    · simp only [insertFlatDesc, if_neg h, List.mem_cons, ih]
      tauto

theorem mem_sortFlatDesc (x : Nat × Nat × List Char) :
    ∀ l, x ∈ sortFlatDesc l ↔ x ∈ l := by
  intro l
  induction l with
  | nil => simp [sortFlatDesc]
  | cons e rest ih =>
    simp [sortFlatDesc, mem_insertFlatDesc, ih]

theorem insertFlatDesc_min_last (e : Nat × Nat × List Char) :
    ∀ l, (∀ y ∈ l, e.1 < y.1) → insertFlatDesc e l = l ++ [e] := by
  intro l
  induction l with
  | nil => simp [insertFlatDesc]
  | cons f rest ih =>
    intro hall
    have hf : e.1 < f.1 := hall f (List.mem_cons_self f rest)
    rw [show insertFlatDesc e (f :: rest) =
      if f.1 ≤ e.1 then e :: f :: rest else f :: insertFlatDesc e rest
      from rfl, if_neg (by omega),
      ih (fun y hy => hall y (List.mem_cons_of_mem f hy))]
    simp

theorem foldl_applyFlat_prefix (n : Nat) :
    ∀ (es : List (Nat × Nat × List Char)) (t : List Char),
      (∀ e ∈ es, n ≤ e.1) → n ≤ t.length →
      ∃ B, es.foldl applyFlatEdit t = t.take n ++ B := by
  intro es
  induction es with
  | nil =>
    intro t _ _
    exact ⟨t.drop n, (List.take_append_drop n t).symm⟩
  | cons e rest ih =>
    intro t hall hn
    have he : n ≤ e.1 := hall e (List.mem_cons_self e rest)
    have hpre : (applyFlatEdit t e).take n = t.take n := by
      unfold applyFlatEdit
      rw [List.append_assoc]
      rw [List.take_append_of_le_length
        (by rw [List.length_take]; omega : n ≤ (t.take e.1).length)]
      rw [List.take_take, Nat.min_eq_left he]
    have hlen : n ≤ (applyFlatEdit t e).length := by
      unfold applyFlatEdit
      simp only [List.length_append, List.length_take]
      omega
    obtain ⟨B, hB⟩ := ih (applyFlatEdit t e)
      (fun x hx => hall x (List.mem_cons_of_mem e hx)) hlen
    exact ⟨B, by rw [List.foldl_cons, hB, hpre]⟩

theorem take_append_add {α : Type} (l₁ l₂ : List α) (n : Nat) :
    (l₁ ++ l₂).take (l₁.length + n) = l₁ ++ l₂.take n := by
  rw [List.take_add, List.take_left, List.drop_left]

theorem lengthOfText_end_newline (q : List Char) (h : '\n' ∉ q) :
    lengthOfText (q ++ ['\n']) = ⟨2, 1⟩ := by
  unfold lengthOfText
  rw [List.foldl_append, lengthOfText_fold q h]
  simp

/-- Applying the partial edit set: with every secondary cursor strictly after
the primary cursor position in the flat text, the flat result is the old text
up to the replace-range start, then the inserted text, then some suffix. -/
theorem applyEditsDoc_flat_shape (doc : List (List Char)) (s0 : Pos)
    (srest : List Pos) (startPos pos : Pos) (ntext : List Char)
    (hsep : ∀ p ∈ srest, posToOff doc pos < posToOff doc p)
    (hle : posToOff doc startPos ≤ posToOff doc pos)
    (hbound : posToOff doc pos ≤ (joinLines doc).length) :
    ∃ B, applyEditsDoc doc
        (getEditsList doc (s0 :: srest) ⟨⟨startPos, pos⟩, ntext⟩) =
      splitLines ((joinLines doc).take (posToOff doc startPos) ++ ntext ++ B) := by
  unfold applyEditsDoc
  have hmap : (getEditsList doc (s0 :: srest) ⟨⟨startPos, pos⟩, ntext⟩).map
      (flatEditOf doc) =
      (posToOff doc startPos, posToOff doc pos, ntext) ::
        ((getEditsList doc (s0 :: srest)
          ⟨⟨startPos, pos⟩, ntext⟩).drop 1).map (flatEditOf doc) := rfl
  have hsecs : ∀ fe ∈ ((getEditsList doc (s0 :: srest)
      ⟨⟨startPos, pos⟩, ntext⟩).drop 1).map (flatEditOf doc),
      posToOff doc pos < fe.1 := by
    intro fe hfe
    rw [List.mem_map] at hfe
    obtain ⟨ste, hste, rfl⟩ := hfe
    simp only [getEditsList, List.drop_succ_cons, List.drop_zero,
      List.mem_map] at hste
    obtain ⟨p, hp, rfl⟩ := hste
    exact hsep p hp
  rw [hmap]
  rw [show sortFlatDesc ((posToOff doc startPos, posToOff doc pos, ntext) ::
      ((getEditsList doc (s0 :: srest)
        ⟨⟨startPos, pos⟩, ntext⟩).drop 1).map (flatEditOf doc)) =
    insertFlatDesc (posToOff doc startPos, posToOff doc pos, ntext)
      (sortFlatDesc (((getEditsList doc (s0 :: srest)
        ⟨⟨startPos, pos⟩, ntext⟩).drop 1).map (flatEditOf doc))) from rfl]
  rw [insertFlatDesc_min_last _ _ (fun y hy =>
    lt_of_le_of_lt hle (hsecs y ((mem_sortFlatDesc y _).mp hy)))]
  rw [List.foldl_append]
  obtain ⟨B1, hB1⟩ := foldl_applyFlat_prefix (posToOff doc pos)
    (sortFlatDesc (((getEditsList doc (s0 :: srest)
      ⟨⟨startPos, pos⟩, ntext⟩).drop 1).map (flatEditOf doc)))
    (joinLines doc)
    (fun e he => Nat.le_of_lt (hsecs e ((mem_sortFlatDesc e _).mp he)))
    hbound
  rw [hB1]
  refine ⟨((joinLines doc).take (posToOff doc pos) ++ B1).drop
    (posToOff doc pos), ?_⟩
  simp only [List.foldl_cons, List.foldl_nil]
  unfold applyFlatEdit
  congr 2
  rw [List.take_append_of_le_length
    (by rw [List.length_take]; omega :
      posToOff doc startPos ≤ ((joinLines doc).take (posToOff doc pos)).length)]
  rw [List.take_take, Nat.min_eq_left hle]

/-- The character count passed to the partial-accept hook equals the number of
committed characters — the length of the committed insertion-text prefix.
This holds for any number of cursors whose secondary positions sit strictly
after the primary cursor in the document (the source computes the accepted
range assuming the text before the primary cursor is unshifted), both for
newline-free commits (as `acceptNextWord` makes) and for commits consisting of
a newline-free prefix followed by one final newline (as `acceptNextLine`
makes). -/
theorem partialNotifiedCount_eq (env : AcceptEnv) (c : Completion)
    (text : List Char) (k : Nat) (ln pc : Nat)
    (hdocwf : ∀ l ∈ env.doc, '\n' ∉ l)
    (hline : c.range.start.line = ln)
    (hln1 : 1 ≤ ln) (hlnd : ln - 1 < env.doc.length)
    (hsc1 : 1 ≤ c.range.start.col) (hscpc : c.range.start.col ≤ pc)
    (hkle : k ≤ text.length)
    (hpcline : pc - 1 ≤ (lineChars env.doc ln).length)
    (hins : pc - c.range.start.col + k ≤ c.insertText.length)
    (hselne : env.selections ≠ [])
    (hsep : ∀ p ∈ env.selections.drop 1,
      posToOff env.doc ⟨ln, pc⟩ < posToOff env.doc p)
    (hshape : ('\n' ∉ text.take k) ∨
      (c.insertText.drop (pc - c.range.start.col) = text ∧
        '\n' ∉ c.insertText.take (pc - c.range.start.col) ∧
        ∃ q, text.take k = q ++ ['\n'] ∧ '\n' ∉ q)) :
    partialNotifiedCount env c ⟨ln, pc⟩ text k =
      pc - c.range.start.col + k := by
  obtain ⟨s0, srest, hsel⟩ : ∃ s0 srest, env.selections = s0 :: srest := by
    cases hs : env.selections with
    | nil => exact absurd hs hselne
    | cons a b => exact ⟨a, b, rfl⟩
  have hLget : env.doc.get? (ln - 1) = some (env.doc.get ⟨ln - 1, hlnd⟩) :=
    List.get?_eq_get hlnd
  have hL : lineChars env.doc ln = env.doc.get ⟨ln - 1, hlnd⟩ := by
    unfold lineChars
    rw [hLget]
    rfl
  have hLnl : '\n' ∉ lineChars env.doc ln := by
    rw [hL]
    exact hdocwf _ (List.get?_mem hLget)
  have hdd : env.doc.drop (ln - 1) =
      lineChars env.doc ln :: env.doc.drop ln := by
    have h1 := List.drop_eq_get_cons (l := env.doc) (n := ln - 1) hlnd
    rw [show ln - 1 + 1 = ln from by omega] at h1
    rw [hL]
    exact h1
  have hdocdecomp : env.doc = env.doc.take (ln - 1) ++
      (lineChars env.doc ln :: env.doc.drop ln) := by
    conv_lhs => rw [← List.take_append_drop (ln - 1) env.doc]
    rw [hdd]
  have hwfpre : ∀ l ∈ env.doc.take (ln - 1), '\n' ∉ l := fun l hl =>
    hdocwf l (List.take_subset _ _ hl)
  set J := ((env.doc.take (ln - 1)).map (fun l => l ++ ['\n'])).join with hJdef
  have hFdecomp : joinLines env.doc =
      J ++ joinLines (lineChars env.doc ln :: env.doc.drop ln) := by
    conv_lhs => rw [hdocdecomp]
    exact joinLines_decomp _ _ (by simp)
  obtain ⟨tailR, htailR⟩ : ∃ tailR,
      joinLines (lineChars env.doc ln :: env.doc.drop ln) =
        lineChars env.doc ln ++ tailR := by
    cases h : env.doc.drop ln with
    | nil => exact ⟨[], by simp [joinLines]⟩
    | cons a b => exact ⟨'\n' :: joinLines (a :: b), rfl⟩
  have hpre_len : (env.doc.take (ln - 1)).length = ln - 1 := by
    rw [List.length_take]
    omega
  have hJlen : J.length =
      ((env.doc.take (ln - 1)).map List.length).sum + (ln - 1) := by
    have h1 := lineStartOff_eq env.doc ln (by omega)
    rw [← hJdef] at h1
    unfold lineStartOff at h1
    omega
  have hoffS : posToOff env.doc c.range.start =
      J.length + (c.range.start.col - 1) := by
    unfold posToOff
    rw [hline, lineStartOff_eq env.doc ln (by omega)]
  have hoffP : posToOff env.doc ⟨ln, pc⟩ = J.length + (pc - 1) := by
    unfold posToOff
    dsimp only
    rw [lineStartOff_eq env.doc ln (by omega)]
  have hLlen : c.range.start.col - 1 ≤ (lineChars env.doc ln).length := by
    omega
  have hbound : posToOff env.doc ⟨ln, pc⟩ ≤ (joinLines env.doc).length := by
    rw [hoffP, hFdecomp, htailR]
    simp only [List.length_append]
    omega
  have hle : posToOff env.doc c.range.start ≤ posToOff env.doc ⟨ln, pc⟩ := by
    rw [hoffS, hoffP]
    omega
  have hsep' : ∀ p ∈ srest,
      posToOff env.doc ⟨ln, pc⟩ < posToOff env.doc p := by
    intro p hp
    apply hsep
    rw [hsel]
    simpa using hp
  unfold partialNotifiedCount
  dsimp only
  have hcast : ((pc : Int)) - (c.range.start.col : Int) + (k : Int) =
      ((pc - c.range.start.col + k : Nat) : Int) := by omega
  rw [hcast, tsSubstring_zero _ _ hins, hsel]
  obtain ⟨B, hB⟩ := applyEditsDoc_flat_shape env.doc s0 srest c.range.start
    ⟨ln, pc⟩ (c.insertText.take (pc - c.range.start.col + k)) hsep' hle hbound
  rw [List.append_assoc] at hB
  rw [hB]
  have hNTlen : (c.insertText.take (pc - c.range.start.col + k)).length =
      pc - c.range.start.col + k := by
    rw [List.length_take]
    exact Nat.min_eq_left hins
  have hFtake : (joinLines env.doc).take (posToOff env.doc c.range.start) =
      J ++ (lineChars env.doc ln).take (c.range.start.col - 1) := by
    rw [hoffS, hFdecomp, htailR, take_append_add,
      List.take_append_of_le_length hLlen]
  have hsplit : splitLines
      ((joinLines env.doc).take (posToOff env.doc c.range.start) ++
        (c.insertText.take (pc - c.range.start.col + k) ++ B)) =
      env.doc.take (ln - 1) ++
        splitLines ((lineChars env.doc ln).take (c.range.start.col - 1) ++
          (c.insertText.take (pc - c.range.start.col + k) ++ B)) := by
    rw [hFtake, List.append_assoc]
    exact splitLines_join_prefix _ hwfpre _
  have hnd_len : ln - 1 ≤ (env.doc.take (ln - 1) ++
      splitLines ((lineChars env.doc ln).take (c.range.start.col - 1) ++
        (c.insertText.take (pc - c.range.start.col + k) ++ B))).length := by
    simp only [List.length_append, hpre_len]
    omega
  have hnewtake : (env.doc.take (ln - 1) ++
      splitLines ((lineChars env.doc ln).take (c.range.start.col - 1) ++
        (c.insertText.take (pc - c.range.start.col + k) ++ B))).take (ln - 1) =
      env.doc.take (ln - 1) := by
    rw [List.take_append_of_le_length (le_of_eq hpre_len.symm),
      List.take_take, Nat.min_self]
  have hlsnew : lineStartOff (env.doc.take (ln - 1) ++
      splitLines ((lineChars env.doc ln).take (c.range.start.col - 1) ++
        (c.insertText.take (pc - c.range.start.col + k) ++ B))) ln =
      J.length := by
    rw [lineStartOff_eq _ ln (by omega), hnewtake]
  have hoffSnew : posToOff (env.doc.take (ln - 1) ++
      splitLines ((lineChars env.doc ln).take (c.range.start.col - 1) ++
        (c.insertText.take (pc - c.range.start.col + k) ++ B)))
      c.range.start = J.length + (c.range.start.col - 1) := by
    unfold posToOff
    rw [hline, hlsnew]
  have hdropflat : ((joinLines env.doc).take (posToOff env.doc c.range.start) ++
      (c.insertText.take (pc - c.range.start.col + k) ++ B)).drop
        (J.length + (c.range.start.col - 1)) =
      c.insertText.take (pc - c.range.start.col + k) ++ B := by
    apply List.drop_left'
    rw [List.length_take, Nat.min_eq_left (le_trans hle hbound), hoffS]
  have hoffE : posToOff (env.doc.take (ln - 1) ++
      splitLines ((lineChars env.doc ln).take (c.range.start.col - 1) ++
        (c.insertText.take (pc - c.range.start.col + k) ++ B)))
      (addPositions ⟨ln, pc⟩ (lengthOfText (text.take k))) =
      J.length + (pc + k - 1) := by
    rcases hshape with hnl | ⟨htext, htp, q, hq, hqnl⟩
    · have hacc : addPositions ⟨ln, pc⟩ (lengthOfText (text.take k)) =
          ⟨ln, pc + k⟩ := by
        rw [lengthOfText_no_newline _ hnl, List.length_take,
          Nat.min_eq_left hkle, addPositions_single]
      rw [hacc]
      unfold posToOff
      dsimp only
      rw [hlsnew]
    · have hk1 : 1 ≤ k := by
        rcases Nat.eq_zero_or_pos k with rfl | h
        · simp at hq
        · exact h
      have hqlen : q.length = k - 1 := by
        have h2 : (text.take k).length = k := by
          rw [List.length_take]
          exact Nat.min_eq_left hkle
        rw [hq] at h2
        simp at h2
        omega
      have htplen : (c.insertText.take (pc - c.range.start.col)).length =
          pc - c.range.start.col := by
        rw [List.length_take]
        exact Nat.min_eq_left (by omega)
      have hNTdecomp : c.insertText.take (pc - c.range.start.col + k) =
          c.insertText.take (pc - c.range.start.col) ++ (q ++ ['\n']) := by
        rw [List.take_add, htext, hq]
      have hnlfree : '\n' ∉
          (lineChars env.doc ln).take (c.range.start.col - 1) ++
            c.insertText.take (pc - c.range.start.col) ++ q := by
        intro hm
        rcases List.mem_append.mp hm with hm2 | hm2
        · rcases List.mem_append.mp hm2 with hm3 | hm3
          · exact hLnl (List.take_subset _ _ hm3)
          · exact htp hm3
        · exact hqnl hm2
      have hacc : addPositions ⟨ln, pc⟩ (lengthOfText (text.take k)) =
          ⟨ln + 1, 1⟩ := by
        rw [hq, lengthOfText_end_newline q hqnl]
        simp [addPositions]
      have hsplitTL : splitLines
          ((lineChars env.doc ln).take (c.range.start.col - 1) ++
            (c.insertText.take (pc - c.range.start.col + k) ++ B)) =
          ((lineChars env.doc ln).take (c.range.start.col - 1) ++
            c.insertText.take (pc - c.range.start.col) ++ q) :: splitLines B := by
        rw [hNTdecomp]
        rw [show (lineChars env.doc ln).take (c.range.start.col - 1) ++
            ((c.insertText.take (pc - c.range.start.col) ++ (q ++ ['\n'])) ++ B) =
          ((lineChars env.doc ln).take (c.range.start.col - 1) ++
            c.insertText.take (pc - c.range.start.col) ++ q) ++ ('\n' :: B)
          from by simp [List.append_assoc]]
        have h3 := splitLines_prepend _ hnlfree ('\n' :: B) [] (splitLines B)
          (splitLines_newline B)
        simpa using h3
      rw [hacc]
      unfold posToOff
      dsimp only
      unfold lineStartOff
      rw [show ln + 1 - 1 = ln from by omega]
      have htakeln : (env.doc.take (ln - 1) ++
          splitLines ((lineChars env.doc ln).take (c.range.start.col - 1) ++
            (c.insertText.take (pc - c.range.start.col + k) ++ B))).take ln =
          env.doc.take (ln - 1) ++
            [(lineChars env.doc ln).take (c.range.start.col - 1) ++
              c.insertText.take (pc - c.range.start.col) ++ q] := by
        rw [hsplitTL]
        have h4 := take_append_add (env.doc.take (ln - 1))
          (((lineChars env.doc ln).take (c.range.start.col - 1) ++
            c.insertText.take (pc - c.range.start.col) ++ q) :: splitLines B) 1
        rw [hpre_len, show ln - 1 + 1 = ln from by omega] at h4
        simpa using h4
      rw [htakeln]
      simp only [List.map_append, List.sum_append, List.map_cons,
        List.map_nil, List.sum_cons, List.sum_nil, List.length_append,
        List.length_take, htplen, hqlen]
      have hmin1 : min (c.range.start.col - 1) (lineChars env.doc ln).length =
          c.range.start.col - 1 := Nat.min_eq_left hLlen
      rw [hmin1]
      omega
  unfold getValueInRangeM
  rw [joinLines_splitLines, hsplit, hoffSnew, hoffE, hdropflat]
  rw [List.length_take, List.length_append, hNTlen]
  omega

/-- C6: a partial accept (`acceptNextWord`/`acceptNextLine`) falls back to a
full `accept()` exactly when the candidate carries a snippet payload, or its
filter text differs from its insertion text, or the computed boundary covers
the whole remaining ghost text and there is only one ghost-text segment;
otherwise only the covered prefix is committed (the trace applies the edits
and updates the cursors) and the provider's partial-accept hook, when present,
is invoked with the partial-accept character count.  Whenever document and
completion are consistent (range anchored on the ghost line, insertion text
covering the commit, secondary cursors after the primary) and the commit is
either newline-free (accept next word) or ends in its single newline (accept
next line), that count equals the number of committed characters. -/
theorem partialAcceptFallbackSpec (env : AcceptEnv) (st : StateS)
    (c : Completion) (f : Pos → List Char → Nat) (fp : GhostPart)
    (rest : List GhostPart) (pos : Pos) (k : Nat)
    (hsame : env.editorModelIsSame = true) (hst : env.state = some st)
    (hghost : ghostIsEmpty st.primaryGhostText = false)
    (hc : st.inlineCompletion = some c)
    (hparts : st.primaryGhostText.parts = fp :: rest)
    (hpos : pos = (⟨st.primaryGhostText.lineNumber, fp.column⟩ : Pos))
    (hkdef : k = f pos fp.text) :
    ((∃ tr, acceptNextRun env f = .ok (.fellBack tr)) ↔
      (c.snippetInfo = true ∨ c.filterText ≠ c.insertText ∨
        (k = fp.text.length ∧ rest = []))) ∧
    (¬ (c.snippetInfo = true ∨ c.filterText ≠ c.insertText ∨
        (k = fp.text.length ∧ rest = [])) →
      acceptNextRun env f =
        .ok (.didPartialAccept (partialTraceOf env c pos fp.text k)) ∧
      (c.hasPartialAcceptHook = true →
        Event.partialAcceptNotify (partialNotifiedCount env c pos fp.text k) ∈
          partialTraceOf env c pos fp.text k) ∧
      (c.hasPartialAcceptHook = false → ∀ n,
        Event.partialAcceptNotify n ∉ partialTraceOf env c pos fp.text k) ∧
      Event.executeEdits ∈ partialTraceOf env c pos fp.text k ∧
      Event.setSelections ∈ partialTraceOf env c pos fp.text k) ∧
    ((∀ l ∈ env.doc, '\n' ∉ l) →
      c.range.start.line = st.primaryGhostText.lineNumber →
      1 ≤ st.primaryGhostText.lineNumber →
      st.primaryGhostText.lineNumber - 1 < env.doc.length →
      1 ≤ c.range.start.col → c.range.start.col ≤ fp.column →
      k ≤ fp.text.length →
      fp.column - 1 ≤
        (lineChars env.doc st.primaryGhostText.lineNumber).length →
      fp.column - c.range.start.col + k ≤ c.insertText.length →
      env.selections ≠ [] →
      (∀ p ∈ env.selections.drop 1,
        posToOff env.doc ⟨st.primaryGhostText.lineNumber, fp.column⟩ <
          posToOff env.doc p) →
      (('\n' ∉ fp.text.take k) ∨
        (c.insertText.drop (fp.column - c.range.start.col) = fp.text ∧
          '\n' ∉ c.insertText.take (fp.column - c.range.start.col) ∧
          ∃ q, fp.text.take k = q ++ ['\n'] ∧ '\n' ∉ q)) →
      partialNotifiedCount env c pos fp.text k =
        fp.column - c.range.start.col + k) := by
  subst hpos
  subst hkdef
  refine ⟨⟨?_, ?_⟩, ?_, ?_⟩
  · rintro ⟨tr, htr⟩
    by_cases hA : c.snippetInfo = true ∨ c.filterText ≠ c.insertText
    · rcases hA with hA | hA
      · exact Or.inl hA
      · exact Or.inr (Or.inl hA)
    · push_neg at hA
      obtain ⟨hA1, hA2⟩ := hA
      have hsnip : c.snippetInfo = false := by
        revert hA1
        cases c.snippetInfo <;> simp
      by_cases hB : f ⟨st.primaryGhostText.lineNumber, fp.column⟩ fp.text =
          fp.text.length ∧ rest = []
      · exact Or.inr (Or.inr hB)
      · exfalso
        rw [acceptNextRun_partialCase env st c f fp rest hsame hst hghost hc
          hsnip hA2 hparts hB] at htr
        simp at htr
  · intro hcond
    rcases hcond with hA | hA | hB
    · obtain ⟨tr0, htr0⟩ : ∃ tr0, acceptRun env = .ok tr0 :=
        ⟨_, acceptRun_eq env st c hsame hst hghost hc⟩
      refine ⟨tr0, ?_⟩
      rw [acceptNextRun_fallbackA env st c f hsame hst hghost hc
        (Or.inl hA), htr0]
      rfl
    · obtain ⟨tr0, htr0⟩ : ∃ tr0, acceptRun env = .ok tr0 :=
        ⟨_, acceptRun_eq env st c hsame hst hghost hc⟩
      refine ⟨tr0, ?_⟩
      rw [acceptNextRun_fallbackA env st c f hsame hst hghost hc
        (Or.inr hA), htr0]
      rfl
    · by_cases hA : c.snippetInfo = true ∨ c.filterText ≠ c.insertText
      · obtain ⟨tr0, htr0⟩ : ∃ tr0, acceptRun env = .ok tr0 :=
          ⟨_, acceptRun_eq env st c hsame hst hghost hc⟩
        refine ⟨tr0, ?_⟩
        rw [acceptNextRun_fallbackA env st c f hsame hst hghost hc hA, htr0]
        rfl
      · push_neg at hA
        obtain ⟨hA1, hA2⟩ := hA
        have hsnip : c.snippetInfo = false := by
          revert hA1
          cases c.snippetInfo <;> simp
        obtain ⟨tr0, htr0⟩ : ∃ tr0, acceptRun env = .ok tr0 :=
          ⟨_, acceptRun_eq env st c hsame hst hghost hc⟩
        refine ⟨tr0, ?_⟩
        rw [acceptNextRun_fallbackB env st c f fp rest hsame hst hghost hc
          hsnip hA2 hparts hB.1 hB.2, htr0]
        rfl
  · intro hncond
    push_neg at hncond
    obtain ⟨hA1, hA2, hB⟩ := hncond
    have hsnip : c.snippetInfo = false := by
      revert hA1
      cases c.snippetInfo <;> simp
    have hnotfull : ¬ (f ⟨st.primaryGhostText.lineNumber, fp.column⟩ fp.text =
        fp.text.length ∧ rest = []) := by
      rintro ⟨h1, h2⟩
      exact absurd h2 (hB h1)
    refine ⟨acceptNextRun_partialCase env st c f fp rest hsame hst hghost hc
      hsnip hA2 hparts hnotfull, ?_, ?_, ?_, ?_⟩
    · intro hhook
      simp [partialTraceOf, hhook]
    · intro hhook n
      simp [partialTraceOf, hhook]
    · simp [partialTraceOf]
    · simp [partialTraceOf]
  · intro hdocwf hline hln1 hlnd hsc1 hscpc hkle hpcline hins hselne hsep
      hshape
    exact partialNotifiedCount_eq env c fp.text
      (f ⟨st.primaryGhostText.lineNumber, fp.column⟩ fp.text)
      st.primaryGhostText.lineNumber fp.column hdocwf hline hln1 hlnd hsc1
      hscpc hkle hpcline hins hselne hsep hshape

/-- Concrete instance discharging the hypotheses of
`partialAcceptFallbackSpec`: committing "llo" out of ghost text "llo world"
at column 3 performs a partial accept and notifies the hook with 5
characters ("hello"), as the count equality's conditions hold there. -/
theorem partialAcceptFallbackSpecWitness :
    (envP.editorModelIsSame = true ∧ envP.state = some stP ∧
      ghostIsEmpty stP.primaryGhostText = false ∧
      stP.inlineCompletion = some cP ∧
      stP.primaryGhostText.parts = fpP :: [] ∧
      (⟨1,3⟩ : Pos) = (⟨stP.primaryGhostText.lineNumber, fpP.column⟩ : Pos) ∧
      3 = fW ⟨1,3⟩ fpP.text) ∧
    partialNotifiedCount envP cP ⟨1,3⟩ fpP.text 3 = 5 ∧
    (((∃ tr, acceptNextRun envP fW = .ok (.fellBack tr)) ↔
      (cP.snippetInfo = true ∨ cP.filterText ≠ cP.insertText ∨
        (3 = fpP.text.length ∧ ([] : List GhostPart) = []))) ∧
    (¬ (cP.snippetInfo = true ∨ cP.filterText ≠ cP.insertText ∨
        (3 = fpP.text.length ∧ ([] : List GhostPart) = [])) →
      acceptNextRun envP fW =
        .ok (.didPartialAccept (partialTraceOf envP cP ⟨1,3⟩ fpP.text 3)) ∧
      (cP.hasPartialAcceptHook = true →
        Event.partialAcceptNotify (partialNotifiedCount envP cP ⟨1,3⟩
            fpP.text 3) ∈ partialTraceOf envP cP ⟨1,3⟩ fpP.text 3) ∧
      (cP.hasPartialAcceptHook = false → ∀ n,
        Event.partialAcceptNotify n ∉ partialTraceOf envP cP ⟨1,3⟩ fpP.text 3) ∧
      Event.executeEdits ∈ partialTraceOf envP cP ⟨1,3⟩ fpP.text 3 ∧
      Event.setSelections ∈ partialTraceOf envP cP ⟨1,3⟩ fpP.text 3) ∧
    ((∀ l ∈ envP.doc, '\n' ∉ l) →
      cP.range.start.line = stP.primaryGhostText.lineNumber →
      1 ≤ stP.primaryGhostText.lineNumber →
      stP.primaryGhostText.lineNumber - 1 < envP.doc.length →
      1 ≤ cP.range.start.col → cP.range.start.col ≤ fpP.column →
      3 ≤ fpP.text.length →
      fpP.column - 1 ≤
        (lineChars envP.doc stP.primaryGhostText.lineNumber).length →
      fpP.column - cP.range.start.col + 3 ≤ cP.insertText.length →
      envP.selections ≠ [] →
      (∀ p ∈ envP.selections.drop 1,
        posToOff envP.doc ⟨stP.primaryGhostText.lineNumber, fpP.column⟩ <
          posToOff envP.doc p) →
      (('\n' ∉ fpP.text.take 3) ∨
        (cP.insertText.drop (fpP.column - cP.range.start.col) = fpP.text ∧
          '\n' ∉ cP.insertText.take (fpP.column - cP.range.start.col) ∧
          ∃ q, fpP.text.take 3 = q ++ ['\n'] ∧ '\n' ∉ q)) →
      partialNotifiedCount envP cP ⟨1,3⟩ fpP.text 3 =
        fpP.column - cP.range.start.col + 3)) :=
  ⟨⟨rfl, rfl, rfl, rfl, rfl, by decide, by decide⟩, by decide,
    partialAcceptFallbackSpec envP stP cP fW fpP [] ⟨1,3⟩ 3
      rfl rfl rfl rfl rfl (by decide) (by decide)⟩


end InlineCompletions
